import Mathlib

/-!
Verification of the convolve image-filter core (src/main.cpp, src/args.hpp)
against its natural-language specification.

The C++ source is shallowly embedded: machine ints and ssize_t become ℤ,
size-like quantities become ℕ, double becomes ℚ (all arithmetic the claims
exercise is exact in the source as well), and 8-bit image samples become ℕ
values below 256.  Fallible operations return Option.
-/

set_option maxRecDepth 40000

namespace Convolve

/-- Embedding of main.cpp reflect: decrement top, mirror past the far edge,
absolute value otherwise.  Source:
  top--; if (top < x) return top - (x - top); else return std::abs(x); -/
def reflect (x top : ℤ) : ℤ :=
  let t := top - 1
  if t < x then t - (x - t) else |x|

/-- The flat image-buffer index read by one convolution tap, as computed in
the body of main.cpp convolve:
  ycoord * width * channels + xcoord
with ycoord = reflect(y + j, height) and
xcoord = reflect(x + i*channels + ch, width*channels). -/
def convIndex (x y channels ch width height i j : ℤ) : ℤ :=
  reflect (y + j) height * (width * channels)
    + reflect (x + i * channels + ch) (width * channels)

/-- Embedding of main.cpp convolve.  The two C++ for-loops run imat (resp.
jmat) from 0 while i = imat - halfmat (resp. j) runs from -halfmat to
halfmat inclusive, accumulating
  sum += image[ycoord*width*channels + xcoord] * mat[imat*matsize + jmat].
The kernel is an index function ℤ → ℚ and the image an index function
ℤ → ℕ (sample values); loop order is kept as a left fold. -/
def convolve (mat : ℤ → ℚ) (image : ℤ → ℕ) (x y channels ch width height : ℤ)
    (matsize halfmat : ℕ) : ℚ :=
  (List.range (2 * halfmat + 1)).foldl
    (fun (sum : ℚ) (imat : ℕ) =>
      (List.range (2 * halfmat + 1)).foldl
        (fun (sum2 : ℚ) (jmat : ℕ) =>
          let i : ℤ := (imat : ℤ) - halfmat
          let j : ℤ := (jmat : ℤ) - halfmat
          sum2 + (image (convIndex x y channels ch width height i j) : ℚ)
              * mat ((imat : ℤ) * matsize + jmat))
        sum)
    0

/-- Accumulating left fold over List.range is a Finset.range sum. -/
lemma foldl_range_add (f : ℕ → ℚ) : ∀ (n : ℕ) (a : ℚ),
    (List.range n).foldl (fun s k => s + f k) a = a + ∑ k ∈ Finset.range n, f k := by
  intro n
  induction n with
  | zero => intro a; simp
  | succ m ih =>
      intro a
      rw [List.range_succ, List.foldl_append, ih, Finset.sum_range_succ]
      simp [add_assoc]

/-- Reindexing of a Finset.range sum of width 2h+1 to the symmetric
integer interval [-h, h]. -/
lemma sum_range_eq_sum_Icc (h : ℕ) (g : ℤ → ℚ) :
    ∑ k ∈ Finset.range (2 * h + 1), g ((k : ℤ) - h)
      = ∑ i ∈ Finset.Icc (-(h : ℤ)) h, g i := by
  have hmap : Finset.Icc (-(h : ℤ)) h
      = (Finset.range (2 * h + 1)).map
          ⟨fun k : ℕ => (k : ℤ) - h, by
            intro a b hab
            exact_mod_cast sub_left_inj.mp hab⟩ := by
    ext z
    simp only [Finset.mem_Icc, Finset.mem_map, Finset.mem_range,
      Function.Embedding.coeFn_mk]
    constructor
    · intro hz
      refine ⟨(z + h).toNat, by omega, by omega⟩
    · rintro ⟨k, hk, rfl⟩
      omega
  rw [hmap, Finset.sum_map]
  rfl

/-- The two loops of convolve, written as nested Finset.range sums. -/
lemma convolve_eq_range_sum (mat : ℤ → ℚ) (image : ℤ → ℕ)
    (x y channels ch width height : ℤ) (matsize halfmat : ℕ) :
    convolve mat image x y channels ch width height matsize halfmat
      = ∑ imat ∈ Finset.range (2 * halfmat + 1),
          ∑ jmat ∈ Finset.range (2 * halfmat + 1),
            (image (convIndex x y channels ch width height
                ((imat : ℤ) - halfmat) ((jmat : ℤ) - halfmat)) : ℚ)
              * mat ((imat : ℤ) * matsize + jmat) := by
  unfold convolve
  have hfun : (fun (sum : ℚ) (imat : ℕ) =>
      (List.range (2 * halfmat + 1)).foldl
        (fun (sum2 : ℚ) (jmat : ℕ) =>
          let i : ℤ := (imat : ℤ) - halfmat
          let j : ℤ := (jmat : ℤ) - halfmat
          sum2 + (image (convIndex x y channels ch width height i j) : ℚ)
              * mat ((imat : ℤ) * matsize + jmat))
        sum)
      = (fun (sum : ℚ) (imat : ℕ) => sum +
          ∑ jmat ∈ Finset.range (2 * halfmat + 1),
            (image (convIndex x y channels ch width height
                ((imat : ℤ) - halfmat) ((jmat : ℤ) - halfmat)) : ℚ)
              * mat ((imat : ℤ) * matsize + jmat)) := by
    funext sum imat
    exact foldl_range_add _ _ sum
  rw [hfun, foldl_range_add
    (fun imat => ∑ jmat ∈ Finset.range (2 * halfmat + 1),
      (image (convIndex x y channels ch width height
          ((imat : ℤ) - halfmat) ((jmat : ℤ) - halfmat)) : ℚ)
        * mat ((imat : ℤ) * matsize + jmat)) (2 * halfmat + 1) 0]
  rw [zero_add]

/-- C1: for every kernel of odd size N = 2h+1 (so h = N/2), every image,
pixel (x, y) and channel ch, convolve returns exactly the double sum over
offsets i, j in [-h, h] of
  image[reflect(y+j, height) * width*channels
        + reflect(x + i*channels + ch, width*channels)]
  * kernel[(i+h)*N + (j+h)]:
the i-offset indexes the kernel's row axis and the j-offset its column
axis. -/
theorem conv_matches_spec_sum (mat : ℤ → ℚ) (image : ℤ → ℕ)
    (x y channels ch width height : ℤ) (h : ℕ) :
    convolve mat image x y channels ch width height (2 * h + 1) h
      = ∑ i ∈ Finset.Icc (-(h : ℤ)) h, ∑ j ∈ Finset.Icc (-(h : ℤ)) h,
          (image (reflect (y + j) height * (width * channels)
              + reflect (x + i * channels + ch) (width * channels)) : ℚ)
            * mat ((i + h) * (2 * h + 1) + (j + h)) := by
  rw [convolve_eq_range_sum]
  rw [← sum_range_eq_sum_Icc h (fun i =>
    ∑ j ∈ Finset.Icc (-(h : ℤ)) h,
      (image (reflect (y + j) height * (width * channels)
          + reflect (x + i * channels + ch) (width * channels)) : ℚ)
        * mat ((i + h) * (2 * h + 1) + (j + h)))]
  refine Finset.sum_congr rfl ?_
  intro imat _
  rw [← sum_range_eq_sum_Icc h (fun j =>
    (image (reflect (y + j) height * (width * channels)
        + reflect (x + ((imat : ℤ) - h) * channels + ch) (width * channels)) : ℚ)
      * mat (((imat : ℤ) - h + h) * (2 * h + 1) + (j + h)))]
  refine Finset.sum_congr rfl ?_
  intro jmat _
  have h1 : ((imat : ℤ) - h + h) = (imat : ℤ) := by ring
  have h2 : ((jmat : ℤ) - h + h) = (jmat : ℤ) := by ring
  rw [h1, h2]
  have h3 : (imat : ℤ) * ((2 * h + 1 : ℕ) : ℤ) + (jmat : ℤ)
      = (imat : ℤ) * (2 * (h : ℤ) + 1) + (jmat : ℤ) := by push_cast; ring
  rw [convIndex, h3]

/-- Range of the reflected coordinate on the domain where the reflection
stays inside the axis: shared by the C4 and C9 developments. -/
lemma reflect_bounds (c top : ℤ) (_htop : 1 ≤ top)
    (hlo : -(top - 1) ≤ c) (hhi : c ≤ 2 * (top - 1)) :
    0 ≤ reflect c top ∧ reflect c top < top := by
  unfold reflect
  by_cases hc : top - 1 < c
  · simp only [hc, if_pos]
    omega
  · simp only [hc, if_neg, not_false_iff]
    rcases le_or_lt 0 c with h0 | h0
    · rw [abs_of_nonneg h0]; omega
    · rw [abs_of_neg h0]; omega

/-- C4 counterexample: the claim asserts the result lies in [0, top) for
every c in [-top, 2*top); at top = 1 and c = -1 (which is in [-1, 2)) the
code returns reflect(-1, 1) = 1, outside [0, 1). -/
theorem reflect_claimed_domain_cex :
    (1 : ℤ) ≤ 1 ∧ (-(1 : ℤ) ≤ -1 ∧ (-1 : ℤ) < 2 * 1)
      ∧ reflect (-1) 1 = 1 ∧ ¬ reflect (-1) 1 < 1 := by
  refine ⟨le_refl 1, ⟨le_refl _, by decide⟩, ?_, ?_⟩ <;> decide

/-- C4 amended: for every extent top >= 1 and coordinate c in
[-(top-1), 2*(top-1)], reflect(c, top) lies in [0, top); moreover, beyond
the last valid index the result is (top-1) - (c - (top-1)), and for
negative c it is abs(c). -/
theorem reflect_in_range (c top : ℤ) (htop : 1 ≤ top)
    (hlo : -(top - 1) ≤ c) (hhi : c ≤ 2 * (top - 1)) :
    (0 ≤ reflect c top ∧ reflect c top < top)
      ∧ (top - 1 < c → reflect c top = (top - 1) - (c - (top - 1)))
      ∧ (c < 0 → reflect c top = |c|) := by
  refine ⟨reflect_bounds c top htop hlo hhi, ?_, ?_⟩
  · intro hc
    unfold reflect
    simp only [hc, if_pos]
  · intro hc
    unfold reflect
    have : ¬ top - 1 < c := by omega
    simp only [this, if_neg, not_false_iff]

/-- C4 amended, witnessed at top = 3, c = 4 (beyond the far edge). -/
theorem reflect_in_range_witness :
    (0 ≤ reflect 4 3 ∧ reflect 4 3 < 3)
      ∧ ((3 : ℤ) - 1 < 4 → reflect 4 3 = (3 - 1) - (4 - (3 - 1)))
      ∧ ((4 : ℤ) < 0 → reflect 4 3 = |(4 : ℤ)|) :=
  reflect_in_range 4 3 (by decide) (by decide) (by decide)

/-- C9: for an image of width W, height H and at least one channel, and a
kernel half-width h with h <= min(W, H) - 1, every flat index
ycoord * W*C + xcoord computed by convolve while the pipeline evaluates a
sample (y a valid row, x a channel-aligned column offset, ch a valid
channel, window offsets i, j in [-h, h]) lies within [0, W*H*C): every
image read is in bounds. -/
theorem conv_index_in_bounds (W H C h : ℕ) (x y ch i j : ℤ)
    (hC : 1 ≤ C)
    (hh : (h : ℤ) ≤ min (W : ℤ) (H : ℤ) - 1)
    (hy : 0 ≤ y ∧ y < (H : ℤ))
    (hx : 0 ≤ x ∧ x < (W : ℤ) * C ∧ (C : ℤ) ∣ x)
    (hch : 0 ≤ ch ∧ ch < (C : ℤ))
    (hi : -(h : ℤ) ≤ i ∧ i ≤ (h : ℤ))
    (hj : -(h : ℤ) ≤ j ∧ j ≤ (h : ℤ)) :
    0 ≤ convIndex x y C ch W H i j
      ∧ convIndex x y C ch W H i j < (W : ℤ) * H * C := by
  obtain ⟨hy0, hy1⟩ := hy
  obtain ⟨hx0, hx1, -⟩ := hx
  obtain ⟨hch0, hch1⟩ := hch
  obtain ⟨hi0, hi1⟩ := hi
  obtain ⟨hj0, hj1⟩ := hj
  have hCz : (1 : ℤ) ≤ C := by exact_mod_cast hC
  have hhW : (h : ℤ) ≤ (W : ℤ) - 1 := by
    have := min_le_left (W : ℤ) (H : ℤ); omega
  have hhH : (h : ℤ) ≤ (H : ℤ) - 1 := by
    have := min_le_right (W : ℤ) (H : ℤ); omega
  have hH1 : (1 : ℤ) ≤ (H : ℤ) := by omega
  have hW1 : (1 : ℤ) ≤ (W : ℤ) := by omega
  have hWC1 : (1 : ℤ) ≤ (W : ℤ) * C := by nlinarith
  obtain ⟨hyc0, hyc1⟩ := reflect_bounds (y + j) H hH1 (by omega) (by omega)
  have p1 : -((h : ℤ) * C) ≤ i * C :=
    mul_le_mul_of_nonneg_right hi0 (by linarith) |>.trans_eq' (by ring)
  have p2 : i * C ≤ (h : ℤ) * C :=
    mul_le_mul_of_nonneg_right hi1 (by linarith)
  have p3 : (h : ℤ) * C ≤ ((W : ℤ) - 1) * C :=
    mul_le_mul_of_nonneg_right hhW (by linarith)
  have p4 : ((W : ℤ) - 1) * C = (W : ℤ) * C - C := by ring
  obtain ⟨hxc0, hxc1⟩ := reflect_bounds (x + i * C + ch) ((W : ℤ) * C)
    hWC1 (by linarith) (by linarith)
  unfold convIndex
  constructor
  · have := mul_nonneg hyc0 (show (0 : ℤ) ≤ (W : ℤ) * C by linarith)
    linarith
  · have q1 : reflect (y + j) H * ((W : ℤ) * C)
        ≤ ((H : ℤ) - 1) * ((W : ℤ) * C) :=
      mul_le_mul_of_nonneg_right (by linarith) (by linarith)
    have q3 : ((H : ℤ) - 1) * ((W : ℤ) * C) + (W : ℤ) * C
        = (W : ℤ) * H * C := by ring
    linarith

/-- C9 witnessed at a 2x2 single-channel image, h = 1, the top-left pixel
and the window corner i = 1, j = -1. -/
theorem conv_index_in_bounds_witness :
    0 ≤ convIndex 0 0 1 0 2 2 1 (-1)
      ∧ convIndex 0 0 1 0 2 2 1 (-1) < ((2 : ℕ) : ℤ) * (2 : ℕ) * (1 : ℕ) :=
  conv_index_in_bounds 2 2 1 1 0 0 0 1 (-1) (by norm_num) (by norm_num)
    ⟨by norm_num, by norm_num⟩ ⟨le_refl 0, by norm_num, dvd_zero _⟩
    ⟨by norm_num, by norm_num⟩ ⟨by norm_num, by norm_num⟩
    ⟨by norm_num, by norm_num⟩

/-- Truncation of a rational toward zero, the rounding C++ uses when a
double is converted to an integer type. -/
def truncQ (q : ℚ) : ℤ := if 0 ≤ q then ⌊q⌋ else ⌈q⌉

/-- The stbi_uc(...) narrowing of a computed double sample in main.cpp:
truncation toward zero reduced into the 8-bit range.  The C++ conversion
is well defined only for values in [0, 256), where this model agrees with
it exactly; every theorem below applies it only on that range. -/
def narrow (q : ℚ) : ℕ := (truncQ q).toNat % 256

/-- Embedding of main.cpp threshold at 8-bit operands, as instantiated by
the pipeline (px and the bounds are uint8): numeric_limits min is 0 and
max is 255. -/
def threshold8 (x lo hi : ℕ) : ℕ :=
  if x ≤ lo then 0 else if hi ≤ x then 255 else x

/-- Algorithm selection, from the Alg enum of args.hpp. -/
inductive Alg
  | none | gauss | sobel | custom | avg
deriving DecidableEq

/-- The three fixed Sobel X-gradient kernels of main.cpp, row-major. -/
def sobelXTab : List (List ℚ) :=
  [[1, 0, -1, 2, 0, -2, 1, 0, -1],
   [3, 0, -3, 10, 0, -10, 3, 0, -3],
   [47, 0, -47, 162, 0, -162, 47, 0, -47]]

/-- The three fixed Sobel Y-gradient kernels of main.cpp, row-major. -/
def sobelYTab : List (List ℚ) :=
  [[1, 2, 1, 0, 0, 0, -1, -2, -1],
   [3, 10, 3, 0, 0, 0, -3, -10, -3],
   [47, 162, 47, 0, 0, 0, -47, -162, -47]]

/-- Sobel X kernel of the given type as an index function. -/
def sobelX (t : ℕ) : ℤ → ℚ := fun k => (sobelXTab.getD t []).getD k.toNat 0

/-- Sobel Y kernel of the given type as an index function. -/
def sobelY (t : ℕ) : ℤ → ℚ := fun k => (sobelYTab.getD t []).getD k.toNat 0

/-- One iteration of the pixel loop of main: dispatch on the algorithm,
narrow the computed double sample to 8 bits (px is an stbi_uc), then
threshold the stored byte.  The Sobel branch runs convolve twice with the
fixed 3x3 kernels (matsize 3, halfmat 1) and combines them through the
square-root function sq applied to gx*gx + gy*gy; sq is a parameter
because square roots of rationals are not rational, and the claims below
constrain it only where its value is exact. -/
def pipelinePx (alg : Alg) (mat : ℤ → ℚ) (sobelType : ℕ) (sq : ℚ → ℚ)
    (image : ℤ → ℕ) (x y channels ch width height : ℤ)
    (matsize halfmat : ℕ) (lo hi : ℕ) : ℕ :=
  let px : ℕ :=
    match alg with
    | .gauss | .avg | .custom =>
        narrow (convolve mat image x y channels ch width height matsize halfmat)
    | .sobel =>
        let gx := convolve (sobelX sobelType) image x y channels ch width height 3 1
        let gy := convolve (sobelY sobelType) image x y channels ch width height 3 1
        narrow (sq (gx * gx + gy * gy))
    | .none => image (y * width * channels + x + ch)
  threshold8 px lo hi

/-- The output buffer of one pipeline run as a function of the flat byte
index: the triple loop of main writes y*W*C + x + ch exactly once per
(y, x, ch) with y in [0, H), x a multiple of C below W*C and ch in [0, C),
so the triple is recovered from the flat index. -/
def pipelineOut (alg : Alg) (mat : ℤ → ℚ) (sobelType : ℕ) (sq : ℚ → ℚ)
    (image : ℤ → ℕ) (W H C matsize halfmat lo hi : ℕ) : ℕ → ℕ := fun idx =>
  let r : ℕ := idx % (W * C)
  pipelinePx alg mat sobelType sq image ((C * (r / C) : ℕ) : ℤ)
    ((idx / (W * C) : ℕ) : ℤ) (C : ℤ) ((r % C : ℕ) : ℤ) (W : ℤ) (H : ℤ)
    matsize halfmat lo hi

/-- Recovering the flat index from its row, aligned-column and channel
parts. -/
lemma flat_index_decomp (idx W C : ℕ) :
    idx / (W * C) * W * C
      + (C * (idx % (W * C) / C) + idx % (W * C) % C) = idx := by
  have h1 := Nat.div_add_mod (idx % (W * C)) C
  have h2 := Nat.div_add_mod idx (W * C)
  rw [h1, mul_assoc, mul_comm (idx / (W * C)) (W * C)]
  exact h2

/-- C7: with algorithm None and the threshold band (0, 255), every byte of
the output buffer equals the corresponding byte of the input buffer. -/
theorem alg_none_identity (mat : ℤ → ℚ) (sobelType : ℕ) (sq : ℚ → ℚ)
    (image : ℤ → ℕ) (W H C matsize halfmat : ℕ)
    (him : ∀ n : ℤ, image n < 256) (idx : ℕ) (_hidx : idx < W * H * C) :
    pipelineOut Alg.none mat sobelType sq image W H C matsize halfmat 0 255 idx
      = image idx := by
  have hdec : ((idx / (W * C) : ℕ) : ℤ) * W * C
      + ((C * (idx % (W * C) / C) : ℕ) : ℤ) + ((idx % (W * C) % C : ℕ) : ℤ)
      = (idx : ℤ) := by
    have := flat_index_decomp idx W C
    push_cast
    push_cast at this
    linarith
  show threshold8 (image _) 0 255 = image (idx : ℤ)
  rw [hdec]
  unfold threshold8
  have := him (idx : ℤ)
  split_ifs <;> omega

/-- C7 witnessed on a 1x1x1 image with byte value 7. -/
theorem alg_none_identity_witness :
    pipelineOut Alg.none (fun _ => 0) 0 id (fun _ => 7) 1 1 1 5 2 0 255 0
      = (fun _ : ℤ => 7) (0 : ℕ) :=
  alg_none_identity (fun _ => 0) 0 id (fun _ => 7) 1 1 1 5 2
    (fun _ => by norm_num) 0 (by norm_num)

/-- Convolution of a constant image factors the constant out of the
kernel-weight sum. -/
lemma convolve_const (mat : ℤ → ℚ) (image : ℤ → ℕ) (v : ℕ)
    (himg : ∀ n, image n = v) (x y channels ch width height : ℤ)
    (matsize halfmat : ℕ) :
    convolve mat image x y channels ch width height matsize halfmat
      = (v : ℚ) * ∑ imat ∈ Finset.range (2 * halfmat + 1),
          ∑ jmat ∈ Finset.range (2 * halfmat + 1),
            mat ((imat : ℤ) * matsize + jmat) := by
  rw [convolve_eq_range_sum, Finset.mul_sum]
  refine Finset.sum_congr rfl fun imat _ => ?_
  rw [Finset.mul_sum]
  refine Finset.sum_congr rfl fun jmat _ => ?_
  rw [himg]

/-- C8: Sobel of type 0 with the default threshold band (0, 255) maps
every sample of a uniform-value image to 0. -/
theorem sobel_uniform_zero (mat : ℤ → ℚ) (sq : ℚ → ℚ) (image : ℤ → ℕ)
    (v : ℕ) (himg : ∀ n, image n = v) (hsq : sq 0 = 0)
    (x y channels ch width height : ℤ) (matsize halfmat : ℕ) :
    pipelinePx Alg.sobel mat 0 sq image x y channels ch width height
      matsize halfmat 0 255 = 0 := by
  show threshold8 (narrow (sq _)) 0 255 = 0
  rw [convolve_const (sobelX 0) image v himg x y channels ch width height 3 1,
    convolve_const (sobelY 0) image v himg x y channels ch width height 3 1]
  have hSX : (∑ imat ∈ Finset.range (2 * 1 + 1),
      ∑ jmat ∈ Finset.range (2 * 1 + 1),
        sobelX 0 ((imat : ℤ) * (3 : ℕ) + jmat)) = 0 := by
    simp [Finset.sum_range_succ, sobelX, sobelXTab]
  have hSY : (∑ imat ∈ Finset.range (2 * 1 + 1),
      ∑ jmat ∈ Finset.range (2 * 1 + 1),
        sobelY 0 ((imat : ℤ) * (3 : ℕ) + jmat)) = 0 := by
    simp [Finset.sum_range_succ, sobelY, sobelYTab]
    norm_num
  rw [hSX, hSY]
  norm_num [hsq]
  rfl

/-- C8 witnessed on a uniform image of value 100. -/
theorem sobel_uniform_zero_witness :
    pipelinePx Alg.sobel (fun _ => 0) 0 id (fun _ => 100) 0 0 1 0 4 4 5 2
      0 255 = 0 :=
  sobel_uniform_zero (fun _ => 0) id (fun _ => 100) 100 (fun _ => rfl) rfl
    0 0 1 0 4 4 5 2

/-- The whitespace characters skipped by C strtod (the isspace set in the
default locale). -/
def isSpaceC (c : Char) : Bool :=
  c == ' ' || c == '\t' || c == '\n' || c == '\x0b' || c == '\x0c' || c == '\r'

/-- Hexadecimal digit test. -/
def isHexDigitC (c : Char) : Bool :=
  c.isDigit || decide ('a' ≤ c ∧ c ≤ 'f') || decide ('A' ≤ c ∧ c ≤ 'F')

/-- Value of a hexadecimal digit. -/
def hexVal (c : Char) : ℕ :=
  if c.isDigit then c.toNat - '0'.toNat
  else if decide ('a' ≤ c ∧ c ≤ 'f') then c.toNat - 'a'.toNat + 10
  else c.toNat - 'A'.toNat + 10

/-- Digit string to a natural number in the given base. -/
def digitsToNat (base : ℕ) (v : Char → ℕ) (ds : List Char) : ℕ :=
  ds.foldl (fun acc c => acc * base + v c) 0

/-- Exponent part of a strtod numeral: one of the marker characters, an
optional sign and at least one decimal digit scale the mantissa by the
radix raised to the signed digit value; with no digit after the marker
nothing is consumed (strtod takes the longest valid prefix). -/
def applyExpWith (radix : ℚ) (em1 em2 : Char) (q : ℚ) (s : List Char) :
    ℚ × List Char :=
  match s with
  | c :: t =>
    if c == em1 || c == em2 then
      let (esign, t2) : ℤ × List Char :=
        match t with
        | '-' :: u => (-1, u)
        | '+' :: u => (1, u)
        | u => (1, u)
      let ds := t2.takeWhile (fun d => d.isDigit)
      let rest := t2.dropWhile (fun d => d.isDigit)
      if ds.isEmpty then (q, c :: t)
      else (q * radix ^ (esign * (digitsToNat 10 (fun d => d.toNat - '0'.toNat) ds : ℤ)),
        rest)
    else (q, c :: t)
  | [] => (q, [])

/-- Decimal mantissa of a strtod numeral: digits, an optional point with
fraction digits, then an optional exponent; none when not a single digit
is present (no conversion). -/
def decimalBody (s : List Char) : Option (ℚ × List Char) :=
  let ds := s.takeWhile (fun c => c.isDigit)
  let r1 := s.dropWhile (fun c => c.isDigit)
  let fr : List Char × List Char :=
    match r1 with
    | '.' :: u => (u.takeWhile (fun c => c.isDigit), u.dropWhile (fun c => c.isDigit))
    | _ => ([], r1)
  let fs := fr.1
  let r2 := fr.2
  if ds.isEmpty && fs.isEmpty then none
  else
    let q : ℚ := (digitsToNat 10 (fun d => d.toNat - '0'.toNat) ds : ℚ)
      + (digitsToNat 10 (fun d => d.toNat - '0'.toNat) fs : ℚ) / (10 : ℚ) ^ fs.length
    some (applyExpWith 10 'e' 'E' q r2)

/-- Unsigned body of a strtod numeral: a hexadecimal form after 0x or 0X
(hex digits, optional point and hex fraction, optional binary exponent
after p or P), falling back to the plain 0 when 0x is followed by no hex
digit, or a decimal form otherwise. -/
def parseBody (s : List Char) : Option (ℚ × List Char) :=
  match s with
  | '0' :: x :: t =>
    if x == 'x' || x == 'X' then
      let ds := t.takeWhile (fun c => isHexDigitC c)
      let r1 := t.dropWhile (fun c => isHexDigitC c)
      let fr : List Char × List Char :=
        match r1 with
        | '.' :: u => (u.takeWhile (fun c => isHexDigitC c),
            u.dropWhile (fun c => isHexDigitC c))
        | _ => ([], r1)
      let fs := fr.1
      let r2 := fr.2
      if ds.isEmpty && fs.isEmpty then some (0, x :: t)
      else
        let q : ℚ := (digitsToNat 16 hexVal ds : ℚ)
          + (digitsToNat 16 hexVal fs : ℚ) / (16 : ℚ) ^ fs.length
        some (applyExpWith 2 'p' 'P' q r2)
    else decimalBody s
  | _ => decimalBody s

/-- Model of C strtod as makeCustomMat uses it: skip leading whitespace,
take an optional sign and the longest finite numeral (decimal or
hexadecimal, with optional fraction and exponent); the result is the value
and the end pointer (the unconsumed suffix).  When no conversion can be
performed the value is 0 and the end pointer is the whole input, leading
whitespace included.  The inf and nan forms are left out: they denote
non-finite doubles that have no rational embedding, and no input below
contains them.  Values are exact rationals, and every numeral evaluated in
the theorems below is exactly representable as a double, so the model
agrees with the C computation on them bit for bit. -/
def strtod (s : List Char) : ℚ × List Char :=
  let ws := s.dropWhile (fun c => isSpaceC c)
  let r : Option (ℚ × List Char) :=
    match ws with
    | '-' :: t => (parseBody t).map (fun p => (-p.1, p.2))
    | '+' :: t => parseBody t
    | _ => parseBody ws
  match r with
  | some p => p
  | none => (0, s)

/-- The matrix size args.hpp computes from the custom-matrix text before
parsing: the count of bar characters plus one unless the text ends with a
bar.  An empty text therefore yields size 1. -/
def computedMatsize (s : List Char) : ℕ :=
  s.count '|' + (if s.getLast? = some '|' then 0 else 1)

/-- The cell loop of makeCustomMat: starting at flat cell index k, parse
the given number of remaining cells of a size x size matrix with strtod.
After a cell that ends a row other than the last the next character must
be a bar, after any other non-final cell a comma, both being consumed;
after the final cell the text must end or continue with a bar, which is
not consumed.  Any other character is a parse error. -/
def parseCells (size : ℕ) : ℕ → ℕ → List Char → Option (List ℚ × List Char)
  | _, 0, s => some ([], s)
  | k, fuel + 1, s =>
    let p := strtod s
    let v := p.1
    let rest := p.2
    if k + 1 = size * size then
      match rest with
      | [] => (parseCells size (k + 1) fuel []).map (fun q => (v :: q.1, q.2))
      | '|' :: t =>
          (parseCells size (k + 1) fuel ('|' :: t)).map (fun q => (v :: q.1, q.2))
      | _ => none
    else if (k + 1) % size = 0 then
      match rest with
      | '|' :: t => (parseCells size (k + 1) fuel t).map (fun q => (v :: q.1, q.2))
      | _ => none
    else
      match rest with
      | ',' :: t => (parseCells size (k + 1) fuel t).map (fun q => (v :: q.1, q.2))
      | _ => none

/-- The kernel-weight sum of makeCustomMat.  The source computes
  std::reduce(out.get(), out.get() + size_2, 0)
whose accumulator type is int, the type of the literal 0: every partial
sum is truncated toward zero to an integer.  std::reduce may group the
additions arbitrarily; this model fixes the sequential left-to-right
order, and every input evaluated below has grouping-independent partial
sums. -/
def reduceInt (l : List ℚ) : ℤ :=
  l.foldl (fun acc c => truncQ ((acc : ℚ) + c)) 0

/-- Embedding of makeCustomMat of main.cpp: parse size*size cells under
the delimiter discipline, require the leftover text to be empty or one
trailing bar, then divide every cell by the int-truncated cell sum unless
that sum is 0.  none models the nullptr error return. -/
def makeCustomMat (s : List Char) (size : ℕ) : Option (List ℚ) :=
  match parseCells size 0 (size * size) s with
  | none => none
  | some (cells, rest) =>
    if rest = [] ∨ rest = ['|'] then
      let sum := reduceInt cells
      if sum ≠ 0 then some (cells.map (fun c => c / (sum : ℚ))) else some cells
    else none

/-- Threshold applied to the raw double sample before narrowing, the
order claim C3 states (written from the spec's words for comparison; the
code narrows first). -/
def thresholdQ (q : ℚ) (lo hi : ℕ) : ℚ :=
  if q ≤ (lo : ℚ) then 0 else if (hi : ℚ) ≤ q then 255 else q

/-- C2: evaluation at the failing input 0,0,0|0,0.5,0|0,0,0.  The parsed
cells sum to 1/2, which is not 0, yet the matrix is returned unchanged:
the normalizing sum is accumulated in an int (std::reduce is seeded with
the int literal 0), so 1/2 truncates to 0 — under any operand grouping,
since every partial sum here lies in [0, 1/2] — and the normalization the
claim describes is skipped. -/
theorem custom_norm_skipped_on_fractional_sum :
    makeCustomMat ("0,0,0|0,0.5,0|0,0,0".toList) 3
        = some [0, 0, 0, 0, 1/2, 0, 0, 0, 0]
      ∧ ([0, 0, 0, 0, (1 : ℚ)/2, 0, 0, 0, 0] : List ℚ).sum = 1/2
      ∧ ((1 : ℚ)/2) ≠ 0 :=
  ⟨by with_unfolding_all decide, by norm_num, by norm_num⟩

/-- strtod performs no conversion on an all-whitespace input and reports
the original text as the end pointer. -/
lemma strtod_all_space (s : List Char) (hws : ∀ c ∈ s, isSpaceC c = true) :
    strtod s = (0, s) := by
  have hdrop : s.dropWhile (fun c => isSpaceC c) = [] := by
    rw [List.dropWhile_eq_nil_iff]
    exact hws
  simp only [strtod, hdrop]
  rfl

/-- C5 counterexample: the empty custom-matrix text is not a parse
failure.  args.hpp computes size 1 for it, strtod performs no conversion
leaving the end pointer at the terminator, which the last-cell check
accepts, and the parser returns a 1x1 matrix holding 0. -/
theorem empty_custom_mat_parses :
    computedMatsize [] = 1 ∧ makeCustomMat [] 1 = some [0] :=
  ⟨rfl, by with_unfolding_all decide⟩

/-- C5 amended: a whitespace-only (nonempty) custom-matrix text is a
parse failure — the computed size is 1 and the parser reports an error —
while the empty text parses successfully as a 1x1 matrix with cell 0. -/
theorem whitespace_custom_mat_fails (s : List Char) (hne : s ≠ [])
    (hws : ∀ c ∈ s, isSpaceC c = true) :
    (computedMatsize s = 1 ∧ makeCustomMat s (computedMatsize s) = none)
      ∧ makeCustomMat [] (computedMatsize []) = some [0] := by
  have hnobar : ∀ c ∈ s, c ≠ '|' := by
    intro c hc hceq
    have hsp := hws c hc
    rw [hceq] at hsp
    simp [isSpaceC] at hsp
  have hcount : s.count '|' = 0 := by
    rw [List.count_eq_zero]
    intro h
    exact hnobar '|' h rfl
  have hlast : ¬ s.getLast? = some '|' := by
    intro h
    have hmem : '|' ∈ s := List.mem_of_getLast?_eq_some h
    exact hnobar '|' hmem rfl
  have hsize : computedMatsize s = 1 := by
    unfold computedMatsize
    rw [hcount, if_neg hlast]
  refine ⟨⟨hsize, ?_⟩, by with_unfolding_all decide⟩
  rw [hsize]
  unfold makeCustomMat
  have hpc : parseCells 1 0 (1 * 1) s = none := by
    rcases s with _ | ⟨c, t⟩
    · exact absurd rfl hne
    · have hc : c ≠ '|' := hnobar c (List.mem_cons_self c t)
      simp only [parseCells, strtod_all_space _ hws]
      norm_num
      split
      · rename_i heq
        exact absurd heq (List.cons_ne_nil c t)
      · rename_i u heq
        injection heq with h1 h2
        exact absurd h1 hc
      · rfl
  rw [hpc]

/-- C5 amended, witnessed at the one-space text. -/
theorem whitespace_custom_mat_fails_witness :
    ((computedMatsize [' '] = 1
        ∧ makeCustomMat [' '] (computedMatsize [' ']) = none)
      ∧ makeCustomMat [] (computedMatsize []) = some [0]) :=
  whitespace_custom_mat_fails [' '] (by decide) (by decide)

/-- C6: the even-sided custom-matrix text 1,2|3,4 is not rejected.
args.hpp computes size 2 from the bar count (its oddness check guards
only the -m option and never the custom-matrix path), makeCustomMat
accepts the text and normalizes by the integer sum 10, and the resulting
2x2 kernel reaches the convolution evaluator. -/
theorem even_custom_mat_accepted :
    computedMatsize ("1,2|3,4".toList) = 2
      ∧ makeCustomMat ("1,2|3,4".toList) 2
        = some [1/10, 2/10, 3/10, 4/10] :=
  ⟨by decide, by with_unfolding_all decide⟩

/-- C10: strtod lexing accepts cell forms beyond a plain decimal numeral:
a matrix text whose first cell carries leading whitespace and exponent
notation (1e1 = 10) and whose second cell is a hexadecimal numeral
(0x10 = 16) parses successfully, and the parsed values become kernel
weights, normalized here by the integer sum 68. -/
theorem strtod_forms_accepted :
    makeCustomMat (" 1e1,0x10,3|4,5,6|7,8,9".toList) 3
      = some [10/68, 16/68, 3/68, 4/68, 5/68, 6/68, 7/68, 8/68, 9/68] := by
  with_unfolding_all decide

/-- The custom kernel parsed from the text 10.5: one cell of value 21/20
(10.5 divided by the int-truncated sum 10). -/
def customMat105 : ℤ → ℚ :=
  fun k => ((makeCustomMat ("10.5".toList) 1).getD []).getD k.toNat 0

/-- C3 counterexample: with the 1x1 custom kernel parsed from 10.5, a
uniform 1x1x1 image of value 10 and the threshold band (10, 200), the
computed double sample is 21/2 = 10.5.  The pipeline narrows it to 10
and then thresholds the 8-bit value, storing 0 (10 <= lo); the claim's
order — threshold the double first, then narrow — yields 10. -/
theorem pipeline_thresholds_after_narrowing_cex :
    convolve customMat105 (fun _ => 10) 0 0 1 0 1 1 1 0 = 21 / 2
      ∧ pipelinePx Alg.custom customMat105 0 id (fun _ => 10) 0 0 1 0 1 1
          1 0 10 200 = 0
      ∧ narrow (thresholdQ (21 / 2) 10 200) = 10 :=
  ⟨by with_unfolding_all decide, by with_unfolding_all decide,
    by with_unfolding_all decide⟩

/-- C3 amended: the pipeline narrows the computed double-precision sample
to 8 bits first and only then applies the threshold band to the stored
8-bit value px — px <= lo gives 0, px >= hi gives 255, px otherwise —
under each of the Gauss, Avg, Custom and Sobel algorithms. -/
theorem pipeline_narrow_then_threshold (mat : ℤ → ℚ) (sobelType : ℕ)
    (sq : ℚ → ℚ) (image : ℤ → ℕ) (x y channels ch width height : ℤ)
    (matsize halfmat lo hi : ℕ) :
    (pipelinePx Alg.gauss mat sobelType sq image x y channels ch width
        height matsize halfmat lo hi
      = threshold8 (narrow (convolve mat image x y channels ch width
          height matsize halfmat)) lo hi)
    ∧ (pipelinePx Alg.avg mat sobelType sq image x y channels ch width
        height matsize halfmat lo hi
      = threshold8 (narrow (convolve mat image x y channels ch width
          height matsize halfmat)) lo hi)
    ∧ (pipelinePx Alg.custom mat sobelType sq image x y channels ch width
        height matsize halfmat lo hi
      = threshold8 (narrow (convolve mat image x y channels ch width
          height matsize halfmat)) lo hi)
    ∧ (pipelinePx Alg.sobel mat sobelType sq image x y channels ch width
        height matsize halfmat lo hi
      = threshold8 (narrow (sq
          (convolve (sobelX sobelType) image x y channels ch width height 3 1
            * convolve (sobelX sobelType) image x y channels ch width height 3 1
          + convolve (sobelY sobelType) image x y channels ch width height 3 1
            * convolve (sobelY sobelType) image x y channels ch width height 3 1)))
          lo hi) :=
  ⟨rfl, rfl, rfl, rfl⟩

end Convolve
